import Mathlib

/-!
Verification of the gib-run transfer and storage engine (server side).

The definitions below are a shallow embedding of the server routes in
`src/server/src/routes/{upload,download,stream}.ts` together with the
SQLite schema of `src/server/src/db/index.ts` and the file routes.
The metadata index is modelled as explicit lists of rows; every SQL
statement used by a handler is translated into the corresponding list
operation.  The `chunks` table declares
`FOREIGN KEY(file_id) REFERENCES files(id) ON DELETE CASCADE`, so a
file-row deletion removes the chunk rows of the deleted file ids.
-/

namespace GibRun

/-- Lifecycle status of a file row (`files.status`). -/
inductive Status where
  | pending
  | active
  | trashed
deriving DecidableEq, Repr

/-- A row of the `files` table. -/
structure FileRow where
  id : String
  name : String
  size : Nat
  type : String
  iv : String
  salt : String
  status : Status
deriving DecidableEq, Repr

/-- A row of the `chunks` table (the AUTOINCREMENT surrogate key is omitted;
row order in the list models rowid order). -/
structure ChunkRow where
  fileId : String
  idx : Nat
  messageId : String
  channelId : String
  size : Nat
  url : Option String
deriving DecidableEq, Repr

/-- The metadata index: the two tables of `db/index.ts`. -/
structure Db where
  files : List FileRow
  chunks : List ChunkRow
deriving DecidableEq, Repr

/-- A Discord attachment as returned by `uploadToDiscord`. -/
structure Att where
  id : String
  url : String
deriving DecidableEq, Repr

/-- `DELETE FROM files WHERE p` under the schema's `ON DELETE CASCADE`:
chunk rows referencing a deleted file row are removed as well. -/
def deleteFilesWhere (db : Db) (p : FileRow → Bool) : Db :=
  let deletedIds := (db.files.filter p).map (·.id)
  { files := db.files.filter (fun f => !(p f)),
    chunks := db.chunks.filter (fun ch => !(deletedIds.contains ch.fileId)) }

/-- `SELECT 1 FROM files WHERE id = ? AND status = 'pending'` is non-empty. -/
def pendingExists (db : Db) (fileId : String) : Bool :=
  db.files.any (fun f => f.id == fileId && f.status == Status.pending)

/-- The new pending row inserted by `POST /upload/file/init`. -/
def mkPendingRow (id name : String) (size : Nat) (ty iv salt : String) : FileRow :=
  ⟨id, name, size, ty, iv, salt, Status.pending⟩

/-- `POST /upload/file/init` (upload.ts, lines 125-161): reject when an
`active` row with the id exists; otherwise delete any existing row with the
id and insert a fresh `pending` row. -/
def initFile (db : Db) (id name : String) (size : Nat) (ty iv salt : String) :
    Db × Except Nat Unit :=
  match db.files.find? (fun f => f.id == id) with
  | some f =>
    if f.status = Status.active then (db, Except.error 409)
    else
      let db1 := deleteFilesWhere db (fun g => g.id == id)
      ({ db1 with files := db1.files ++ [mkPendingRow id name size ty iv salt] },
       Except.ok ())
  | none =>
    ({ db with files := db.files ++ [mkPendingRow id name size ty iv salt] },
     Except.ok ())

/-- `POST /upload/file/:id/finalize` (upload.ts, lines 186-213):
`UPDATE files SET status = 'active' WHERE id = ?`, then respond success
(the VACUUM and the background backup do not touch the two tables). -/
def finalizeFile (db : Db) (id : String) : Db × Except Nat Unit :=
  ({ db with
      files := db.files.map (fun f =>
        if f.id == id then { f with status := Status.active } else f) },
   Except.ok ())

/-- `POST /upload/file/:id/abort` (upload.ts, lines 219-247): collect the
message ids of all chunks with the file id (no status filter in the source),
then `DELETE FROM files WHERE id = ? AND status = 'pending'` (cascading),
and schedule a bulk delete of the collected ids.  Returns the new state and
the scheduled message ids. -/
def abortFile (db : Db) (fileId : String) : Db × List String :=
  let messageIds := (db.chunks.filter (fun ch => ch.fileId == fileId)).map (·.messageId)
  let db1 := deleteFilesWhere db (fun f => f.id == fileId && f.status == Status.pending)
  (db1, messageIds)

/-- `DELETE /upload/file/pending/all` (upload.ts, lines 252-286): collect
message ids of chunks of pending files, delete those chunks and files,
schedule bulk delete of the collected ids. -/
def purgePending (db : Db) : Db × List String :=
  let pendIds := (db.files.filter (fun f => f.status == Status.pending)).map (·.id)
  let messageIds :=
    (db.chunks.filter (fun ch => pendIds.contains ch.fileId)).map (·.messageId)
  ({ files := db.files.filter (fun f => !(f.status == Status.pending)),
     chunks := db.chunks.filter (fun ch => !(pendIds.contains ch.fileId)) },
   messageIds)

/-- `DELETE /files/trash` (files routes): delete every trashed file and its
chunks, schedule bulk delete of their message ids. -/
def emptyTrash (db : Db) : Db × List String :=
  let ids := (db.files.filter (fun f => f.status == Status.trashed)).map (·.id)
  if ids.isEmpty then (db, [])
  else
    let messageIds :=
      (db.chunks.filter (fun ch => ids.contains ch.fileId)).map (·.messageId)
    ({ files := db.files.filter (fun f => !(ids.contains f.id)),
       chunks := db.chunks.filter (fun ch => !(ids.contains ch.fileId)) },
     messageIds)

/-- `DELETE /files/:id` (files routes): 404 when absent; soft-delete an
active file to trashed; otherwise hard-delete the row (cascading) and
schedule bulk delete of its chunk message ids. -/
def deleteFileRoute (db : Db) (id : String) : Db × Except Nat Unit × List String :=
  match db.files.find? (fun f => f.id == id) with
  | none => (db, Except.error 404, [])
  | some f =>
    if f.status = Status.active then
      ({ db with
          files := db.files.map (fun g =>
            if g.id == id then { g with status := Status.trashed } else g) },
       Except.ok (), [])
    else
      let messageIds := (db.chunks.filter (fun ch => ch.fileId == id)).map (·.messageId)
      (deleteFilesWhere db (fun g => g.id == id), Except.ok (), messageIds)

/-- Outcome of one `POST /upload/file/:id/chunk` call: final database,
HTTP result (`ok messageId` or `error status`), and the external message
ids scheduled for background deletion during the call. -/
structure ChunkOutcome where
  db : Db
  result : Except Nat String
  deleteQueue : List String
deriving Repr

/-- `process.env.DISCORD_CHANNEL_ID` as stored into new chunk rows. -/
def primaryChannel : String := "primary"

/-- `POST /upload/file/:id/chunk` (upload.ts, lines 15-119), with the
chunk index already resolved.  `interfere` is the database mutation (by
other request handlers) that happens while the handler awaits the external
upload; the handler itself performs, in source order: empty-body check,
pending check, idempotent overwrite of a prior `(fileId, idx)` row, the
external upload (returning `att`), the post-upload pending recheck, and
the chunk-row insert. -/
def chunkUploadRun (db : Db) (interfere : Db → Db) (fileId : String)
    (idx chunkLen : Nat) (att : Att) : ChunkOutcome :=
  if chunkLen = 0 then ⟨db, Except.error 400, []⟩
  else if !pendingExists db fileId then ⟨db, Except.error 404, []⟩
  else
    let existing := (db.chunks.filter (fun ch => ch.fileId == fileId && ch.idx == idx)).head?
    let db1 :=
      match existing with
      | some _ =>
        { db with chunks := db.chunks.filter (fun ch => !(ch.fileId == fileId && ch.idx == idx)) }
      | none => db
    let q1 :=
      match existing with
      | some ex => [ex.messageId]
      | none => []
    let db2 := interfere db1
    if !pendingExists db2 fileId then ⟨db2, Except.error 404, q1 ++ [att.id]⟩
    else
      ⟨{ db2 with
          chunks := db2.chunks ++ [⟨fileId, idx, att.id, primaryChannel, chunkLen, some att.url⟩] },
       Except.ok att.id, q1⟩

/-- One chunk-upload call with no concurrent interference. -/
def chunkUploadStep (db : Db) (fileId : String) (idx chunkLen : Nat) (att : Att) :
    ChunkOutcome :=
  chunkUploadRun db (fun d => d) fileId idx chunkLen att

/-- Sequential chunk-upload calls at a fixed `(fileId, idx)`; returns the
final database and the concatenation of the per-call delete queues. -/
def seqUpload (fileId : String) (idx : Nat) : Db → List (Nat × Att) → Db × List String
  | db, [] => (db, [])
  | db, (len, att) :: rest =>
    let out := chunkUploadStep db fileId idx len att
    let tail := seqUpload fileId idx out.db rest
    (tail.1, out.deleteQueue ++ tail.2)

/-- Chunk rows stored at a given `(fileId, idx)` key. -/
def keyChunks (db : Db) (fileId : String) (idx : Nat) : List ChunkRow :=
  db.chunks.filter (fun ch => ch.fileId == fileId && ch.idx == idx)

/-- With primary-key-unique ids, `find?` by id returns the member row. -/
theorem find_row_by_id {l : List FileRow} (hnodup : (l.map (·.id)).Nodup)
    {f : FileRow} (hf : f ∈ l) :
    l.find? (fun g => g.id == f.id) = some f := by
  induction l with
  | nil => cases hf
  | cons a t ih =>
    simp only [List.map_cons, List.nodup_cons, List.mem_map] at hnodup
    rcases List.mem_cons.1 hf with rfl | hft
    · simp [List.find?]
    · have hne : ¬ (a.id == f.id) = true := by
        simp only [beq_iff_eq]
        intro h
        exact hnodup.1 ⟨f, hft, h.symm⟩
      simp only [List.find?, Bool.not_eq_true] at hne ⊢
      rw [hne]
      exact ih hnodup.2 hft

/-- C10: `Finalize(id)` returns success even when no file row with `id`
exists (leaving the store unchanged); when rows exist it sets `status` to
`active` unconditionally, regardless of the prior status (in particular a
`trashed` row becomes `active`), touching nothing else. -/
theorem finalizeFile_unconditional_active (db : Db) (id : String) :
    (finalizeFile db id).2 = Except.ok () ∧
    ((∀ f ∈ db.files, f.id ≠ id) → (finalizeFile db id).1 = db) ∧
    (∀ f ∈ (finalizeFile db id).1.files, f.id = id → f.status = Status.active) ∧
    (finalizeFile db id).1.chunks = db.chunks ∧
    (finalizeFile db id).1.files.length = db.files.length ∧
    (∀ f ∈ db.files, f.id ≠ id → f ∈ (finalizeFile db id).1.files) := by
  refine ⟨rfl, ?_, ?_, rfl, by simp [finalizeFile], ?_⟩
  · intro h
    have hmap : db.files.map (fun f =>
        if f.id == id then { f with status := Status.active } else f) = db.files := by
      conv_rhs => rw [← List.map_id db.files]
      apply List.map_congr_left
      intro f hf
      simp [beq_iff_eq, h f hf]
    simp only [finalizeFile]
    rw [hmap]
  · intro f hf hid
    simp only [finalizeFile, List.mem_map] at hf
    obtain ⟨a, _, rfl⟩ := hf
    by_cases h : a.id = id
    · simp [h]
    · simp only [beq_iff_eq, if_neg h] at hid ⊢
      exact absurd hid h
  · intro f hf hne
    simp only [finalizeFile]
    exact List.mem_map.2 ⟨f, hf, by simp [beq_iff_eq, hne]⟩

/-- C10 witness: a trashed row is moved back to active, and finalizing a
missing id succeeds without changing the store. -/
theorem finalizeFile_unconditional_active_witness :
    (finalizeFile ⟨[⟨"f", "n", 3, "t", "", "", Status.trashed⟩], []⟩ "f").2 = Except.ok () ∧
    (∀ f ∈ (finalizeFile ⟨[⟨"f", "n", 3, "t", "", "", Status.trashed⟩], []⟩ "f").1.files,
       f.id = "f" → f.status = Status.active) ∧
    (finalizeFile ⟨[], []⟩ "f").1 = ⟨[], []⟩ := by
  have h1 := finalizeFile_unconditional_active ⟨[⟨"f", "n", 3, "t", "", "", Status.trashed⟩], []⟩ "f"
  have h2 := finalizeFile_unconditional_active ⟨[], []⟩ "f"
  exact ⟨h1.1, h1.2.2.1, h2.2.1 (by intro f hf; cases hf)⟩

/-- Concrete store for the abort divergence: one active file `f` whose
single chunk is external message `m1`. -/
def dbAbortActive : Db :=
  ⟨[⟨"f", "n", 7, "t", "", "", Status.active⟩], [⟨"f", 0, "m1", "primary", 7, none⟩]⟩

/-- C7: aborting a file that is `active` (not `pending`) leaves the file
and chunk rows unchanged, yet the source still schedules the external bulk
deletion of the active file's chunk message `m1`, because the message-id
collection in the abort handler has no status filter. -/
theorem abortFile_schedules_active_chunks :
    (abortFile dbAbortActive "f").1 = dbAbortActive ∧
    (abortFile dbAbortActive "f").2 = ["m1"] ∧
    (∃ f ∈ dbAbortActive.files, f.id = "f" ∧ f.status = Status.active) := by
  refine ⟨by decide, by decide, ?_⟩
  exact ⟨⟨"f", "n", 7, "t", "", "", Status.active⟩, by simp [dbAbortActive], rfl, rfl⟩

/-- C6: `Init(meta)` with id `i`: an `active` row with id `i` makes the
call fail with 409 leaving the store unchanged; a `pending` row with id
`i` is deleted and a fresh pending row inserted; with no row, or with a
row in another status such as `trashed`, a pending row with id `i` ends up
inserted (replacing any non-active row with that id). -/
theorem initFile_cases (db : Db) (id name : String) (size : Nat) (ty iv salt : String)
    (hnodup : (db.files.map (·.id)).Nodup) :
    ((∃ f ∈ db.files, f.id = id ∧ f.status = Status.active) →
       initFile db id name size ty iv salt = (db, Except.error 409)) ∧
    ((∃ f ∈ db.files, f.id = id ∧ f.status = Status.pending) →
       (initFile db id name size ty iv salt).2 = Except.ok () ∧
       (initFile db id name size ty iv salt).1.files =
         db.files.filter (fun f => !(f.id == id)) ++ [mkPendingRow id name size ty iv salt]) ∧
    ((∀ f ∈ db.files, f.id ≠ id) →
       initFile db id name size ty iv salt =
         ({ db with files := db.files ++ [mkPendingRow id name size ty iv salt] },
          Except.ok ())) ∧
    ((∃ f ∈ db.files, f.id = id ∧ f.status = Status.trashed) →
       (initFile db id name size ty iv salt).2 = Except.ok () ∧
       (initFile db id name size ty iv salt).1.files =
         db.files.filter (fun f => !(f.id == id)) ++ [mkPendingRow id name size ty iv salt]) := by
  refine ⟨?_, ?_, ?_, ?_⟩
  · rintro ⟨f, hf, hid, hst⟩
    subst hid
    simp [initFile, find_row_by_id hnodup hf, hst]
  · rintro ⟨f, hf, hid, hst⟩
    subst hid
    simp [initFile, find_row_by_id hnodup hf, hst, deleteFilesWhere]
  · intro h
    have hnone : db.files.find? (fun f => f.id == id) = none := by
      rw [List.find?_eq_none]
      intro f hf
      simp [beq_iff_eq, h f hf]
    simp [initFile, hnone]
  · rintro ⟨f, hf, hid, hst⟩
    subst hid
    simp [initFile, find_row_by_id hnodup hf, hst, deleteFilesWhere]

/-- C6 witness: an active row yields 409 with the store unchanged; a
pending row and a trashed row are both replaced by a fresh pending row;
an absent id yields a plain insert. -/
theorem initFile_cases_witness :
    initFile ⟨[⟨"x", "a", 1, "t", "", "", Status.active⟩], []⟩ "x" "n" 2 "t" "" "" =
      (⟨[⟨"x", "a", 1, "t", "", "", Status.active⟩], []⟩, Except.error 409) ∧
    (initFile ⟨[⟨"x", "a", 1, "t", "", "", Status.pending⟩], []⟩ "x" "n" 2 "t" "" "").1.files =
      [mkPendingRow "x" "n" 2 "t" "" ""] ∧
    (initFile ⟨[⟨"x", "a", 1, "t", "", "", Status.trashed⟩], []⟩ "x" "n" 2 "t" "" "").1.files =
      [mkPendingRow "x" "n" 2 "t" "" ""] ∧
    initFile ⟨[], []⟩ "x" "n" 2 "t" "" "" =
      (⟨[mkPendingRow "x" "n" 2 "t" "" ""], []⟩, Except.ok ()) := by
  have hA := initFile_cases ⟨[⟨"x", "a", 1, "t", "", "", Status.active⟩], []⟩
    "x" "n" 2 "t" "" "" (by decide)
  have hP := initFile_cases ⟨[⟨"x", "a", 1, "t", "", "", Status.pending⟩], []⟩
    "x" "n" 2 "t" "" "" (by decide)
  have hT := initFile_cases ⟨[⟨"x", "a", 1, "t", "", "", Status.trashed⟩], []⟩
    "x" "n" 2 "t" "" "" (by decide)
  have hN := initFile_cases ⟨[], []⟩ "x" "n" 2 "t" "" "" (by decide)
  refine ⟨hA.1 ⟨_, List.mem_singleton.2 rfl, rfl, rfl⟩, ?_, ?_, hN.2.2.1 (by intro f hf; cases hf)⟩
  · have h := (hP.2.1 ⟨_, List.mem_singleton.2 rfl, rfl, rfl⟩).2
    rw [h]
    decide
  · have h := (hT.2.2.2 ⟨_, List.mem_singleton.2 rfl, rfl, rfl⟩).2
    rw [h]
    decide

/-- Deleting file rows cascades: when a row with id `i` matches the delete
predicate, no chunk row with `fileId = i` survives. -/
theorem deleteFilesWhere_no_chunks {db : Db} {p : FileRow → Bool} {i : String}
    (hex : ∃ f ∈ db.files, f.id = i ∧ p f = true) :
    ∀ ch ∈ (deleteFilesWhere db p).chunks, ch.fileId ≠ i := by
  obtain ⟨f, hf, hid, hp⟩ := hex
  intro ch hch heq
  simp only [deleteFilesWhere, List.mem_filter, Bool.not_eq_eq_eq_not, Bool.not_true] at hch
  have hmem : i ∈ (db.files.filter p).map (·.id) :=
    List.mem_map.2 ⟨f, List.mem_filter.2 ⟨hf, hp⟩, hid⟩
  have hc : ((db.files.filter p).map (·.id)).contains ch.fileId = true := by
    rw [heq]
    exact List.elem_iff.2 hmem
  rw [hch.2] at hc
  exact Bool.false_ne_true hc

/-- C8: every operation that removes a file row (Abort on a pending file,
the hard delete of a trashed file, Empty-Trash, Bulk-Purge-Pending, and
the pending-replace inside Init) leaves no chunk row with that file id. -/
theorem cascade_no_orphan_chunks (db : Db) (id : String)
    (hnodup : (db.files.map (·.id)).Nodup) :
    ((∃ f ∈ db.files, f.id = id ∧ f.status = Status.pending) →
       ∀ ch ∈ (abortFile db id).1.chunks, ch.fileId ≠ id) ∧
    ((∃ f ∈ db.files, f.id = id ∧ f.status = Status.trashed) →
       ∀ ch ∈ (deleteFileRoute db id).1.chunks, ch.fileId ≠ id) ∧
    ((∃ f ∈ db.files, f.id = id ∧ f.status = Status.trashed) →
       ∀ ch ∈ (emptyTrash db).1.chunks, ch.fileId ≠ id) ∧
    ((∃ f ∈ db.files, f.id = id ∧ f.status = Status.pending) →
       ∀ ch ∈ (purgePending db).1.chunks, ch.fileId ≠ id) ∧
    (∀ name ty iv salt : String, ∀ size : Nat,
       (∃ f ∈ db.files, f.id = id ∧ f.status = Status.pending) →
       ∀ ch ∈ (initFile db id name size ty iv salt).1.chunks, ch.fileId ≠ id) := by
  refine ⟨?_, ?_, ?_, ?_, ?_⟩
  · rintro ⟨f, hf, hid, hst⟩
    exact deleteFilesWhere_no_chunks ⟨f, hf, hid, by simp [hid, hst]⟩
  · rintro ⟨f, hf, hid, hst⟩
    subst hid
    have hfind := find_row_by_id hnodup hf
    simp only [deleteFileRoute, hfind, hst]
    exact deleteFilesWhere_no_chunks ⟨f, hf, rfl, by simp⟩
  · rintro ⟨f, hf, hid, hst⟩
    have hids : id ∈ (db.files.filter (fun g => g.status == Status.trashed)).map (·.id) :=
      List.mem_map.2 ⟨f, List.mem_filter.2 ⟨hf, by simp [hst]⟩, hid⟩
    have hne : ((db.files.filter (fun g => g.status == Status.trashed)).map (·.id)) ≠ [] :=
      List.ne_nil_of_mem hids
    intro ch hch heq
    simp only [emptyTrash] at hch
    rw [if_neg (fun h => hne (List.isEmpty_iff.1 h))] at hch
    simp only [List.mem_filter, Bool.not_eq_eq_eq_not, Bool.not_true] at hch
    have hc : (((db.files.filter (fun g => g.status == Status.trashed)).map (·.id)).contains
        ch.fileId) = true := by
      rw [heq]
      exact List.elem_iff.2 hids
    rw [hch.2] at hc
    exact Bool.false_ne_true hc
  · rintro ⟨f, hf, hid, hst⟩
    have hids : id ∈ (db.files.filter (fun g => g.status == Status.pending)).map (·.id) :=
      List.mem_map.2 ⟨f, List.mem_filter.2 ⟨hf, by simp [hst]⟩, hid⟩
    intro ch hch heq
    simp only [purgePending, List.mem_filter, Bool.not_eq_eq_eq_not, Bool.not_true] at hch
    have hc : (((db.files.filter (fun g => g.status == Status.pending)).map (·.id)).contains
        ch.fileId) = true := by
      rw [heq]
      exact List.elem_iff.2 hids
    rw [hch.2] at hc
    exact Bool.false_ne_true hc
  · intro name ty iv salt size hex
    obtain ⟨f, hf, hid, hst⟩ := hex
    subst hid
    have hfind := find_row_by_id hnodup hf
    simp only [initFile, hfind, hst]
    rw [if_neg (by simp [hst])]
    exact deleteFilesWhere_no_chunks ⟨f, hf, rfl, by simp⟩

/-- C8 witness: concrete pending and trashed stores run through all five
removal operations end with no chunk row for the removed file id. -/
theorem cascade_no_orphan_chunks_witness :
    (∀ ch ∈ (abortFile ⟨[⟨"p", "n", 3, "t", "", "", Status.pending⟩],
        [⟨"p", 0, "m1", "primary", 3, none⟩]⟩ "p").1.chunks, ch.fileId ≠ "p") ∧
    (∀ ch ∈ (deleteFileRoute ⟨[⟨"q", "n", 3, "t", "", "", Status.trashed⟩],
        [⟨"q", 0, "m2", "primary", 3, none⟩]⟩ "q").1.chunks, ch.fileId ≠ "q") ∧
    (∀ ch ∈ (emptyTrash ⟨[⟨"q", "n", 3, "t", "", "", Status.trashed⟩],
        [⟨"q", 0, "m2", "primary", 3, none⟩]⟩).1.chunks, ch.fileId ≠ "q") ∧
    (∀ ch ∈ (purgePending ⟨[⟨"p", "n", 3, "t", "", "", Status.pending⟩],
        [⟨"p", 0, "m1", "primary", 3, none⟩]⟩).1.chunks, ch.fileId ≠ "p") ∧
    (∀ ch ∈ (initFile ⟨[⟨"p", "n", 3, "t", "", "", Status.pending⟩],
        [⟨"p", 0, "m1", "primary", 3, none⟩]⟩ "p" "n2" 5 "t" "" "").1.chunks,
      ch.fileId ≠ "p") := by
  have hP := cascade_no_orphan_chunks ⟨[⟨"p", "n", 3, "t", "", "", Status.pending⟩],
    [⟨"p", 0, "m1", "primary", 3, none⟩]⟩ "p" (by decide)
  have hT := cascade_no_orphan_chunks ⟨[⟨"q", "n", 3, "t", "", "", Status.trashed⟩],
    [⟨"q", 0, "m2", "primary", 3, none⟩]⟩ "q" (by decide)
  have hmemP : (⟨"p", "n", 3, "t", "", "", Status.pending⟩ : FileRow) ∈
      [(⟨"p", "n", 3, "t", "", "", Status.pending⟩ : FileRow)] := List.mem_singleton.2 rfl
  have hmemT : (⟨"q", "n", 3, "t", "", "", Status.trashed⟩ : FileRow) ∈
      [(⟨"q", "n", 3, "t", "", "", Status.trashed⟩ : FileRow)] := List.mem_singleton.2 rfl
  exact ⟨hP.1 ⟨_, hmemP, rfl, rfl⟩, hT.2.1 ⟨_, hmemT, rfl, rfl⟩,
    hT.2.2.1 ⟨_, hmemT, rfl, rfl⟩, hP.2.2.2.1 ⟨_, hmemP, rfl, rfl⟩,
    hP.2.2.2.2 "n2" "t" "" "" 5 ⟨_, hmemP, rfl, rfl⟩⟩

/-- After an abort, no pending row with the aborted id remains. -/
theorem pendingExists_abort (db : Db) (fileId : String) :
    pendingExists (abortFile db fileId).1 fileId = false := by
  simp only [abortFile, deleteFilesWhere, pendingExists]
  rw [List.any_eq_false]
  intro g hg
  have h2 := (List.mem_filter.1 hg).2
  intro hcon
  rw [Bool.not_eq_true'] at h2
  rw [h2] at hcon
  exact Bool.false_ne_true hcon

/-- C2: when the external upload succeeds but an Abort ran during it, the
post-upload recheck fails: the handler answers 404, no chunk row for the
file remains (in particular none is inserted at `(id, idx)`), and the
deletion of the just-uploaded external record `att.id` is scheduled. -/
theorem chunkUpload_abort_race_cleanup (db : Db) (fileId : String)
    (idx chunkLen : Nat) (att : Att)
    (hp : pendingExists db fileId = true) (hlen : 1 ≤ chunkLen) :
    (chunkUploadRun db (fun d => (abortFile d fileId).1) fileId idx chunkLen att).result =
      Except.error 404 ∧
    (∀ ch ∈ (chunkUploadRun db (fun d => (abortFile d fileId).1) fileId idx
        chunkLen att).db.chunks, ch.fileId ≠ fileId) ∧
    att.id ∈ (chunkUploadRun db (fun d => (abortFile d fileId).1) fileId idx
        chunkLen att).deleteQueue := by
  obtain ⟨f, hf, hpf⟩ := List.any_eq_true.1 hp
  rw [Bool.and_eq_true] at hpf
  have hfid : f.id = fileId := by simpa using hpf.1
  have hfst : f.status = Status.pending := by simpa using hpf.2
  cases hex : (db.chunks.filter (fun ch => ch.fileId == fileId && ch.idx == idx)).head? with
  | none =>
    simp only [chunkUploadRun, if_neg (by omega : ¬ chunkLen = 0), hp, Bool.not_true,
      Bool.false_eq_true, if_false, hex, pendingExists_abort, Bool.not_false, if_true]
    refine ⟨trivial, ?_, List.mem_append.2 (Or.inr (List.mem_singleton.2 rfl))⟩
    exact deleteFilesWhere_no_chunks ⟨f, hf, hfid, by simp [hfid, hfst]⟩
  | some ex =>
    simp only [chunkUploadRun, if_neg (by omega : ¬ chunkLen = 0), hp, Bool.not_true,
      Bool.false_eq_true, if_false, hex, pendingExists_abort, Bool.not_false, if_true]
    refine ⟨trivial, ?_, List.mem_append.2 (Or.inr (List.mem_singleton.2 rfl))⟩
    exact deleteFilesWhere_no_chunks ⟨f, hf, hfid, by simp [hfid, hfst]⟩

/-- C2 witness: concrete pending store with an in-flight chunk upload of
message `a1` racing an abort. -/
theorem chunkUpload_abort_race_cleanup_witness :
    pendingExists ⟨[⟨"p", "n", 3, "t", "", "", Status.pending⟩], []⟩ "p" = true ∧
    (chunkUploadRun ⟨[⟨"p", "n", 3, "t", "", "", Status.pending⟩], []⟩
        (fun d => (abortFile d "p").1) "p" 0 3 ⟨"a1", "u1"⟩).result = Except.error 404 ∧
    "a1" ∈ (chunkUploadRun ⟨[⟨"p", "n", 3, "t", "", "", Status.pending⟩], []⟩
        (fun d => (abortFile d "p").1) "p" 0 3 ⟨"a1", "u1"⟩).deleteQueue := by
  have h := chunkUpload_abort_race_cleanup ⟨[⟨"p", "n", 3, "t", "", "", Status.pending⟩], []⟩
    "p" 0 3 ⟨"a1", "u1"⟩ (by decide) (by omega)
  exact ⟨by decide, h.1, h.2.2⟩

/-- `pendingExists` only reads the `files` table. -/
theorem pendingExists_congr {d1 d2 : Db} (h : d1.files = d2.files) (fid : String) :
    pendingExists d1 fid = pendingExists d2 fid := by
  simp [pendingExists, h]

/-- One successful interference-free chunk upload at `(fileId, idx)`:
the files table is untouched, the key now holds exactly the new row,
chunks at other keys are untouched, the delete queue holds the message id
of the overwritten row (if any), and the call returns the message id. -/
theorem chunkUploadStep_char (db : Db) (fileId : String) (idx chunkLen : Nat) (att : Att)
    (hp : pendingExists db fileId = true) (hlen : 1 ≤ chunkLen) :
    (chunkUploadStep db fileId idx chunkLen att).db.files = db.files ∧
    keyChunks (chunkUploadStep db fileId idx chunkLen att).db fileId idx =
      [⟨fileId, idx, att.id, primaryChannel, chunkLen, some att.url⟩] ∧
    ((chunkUploadStep db fileId idx chunkLen att).db.chunks.filter
        (fun ch => !(ch.fileId == fileId && ch.idx == idx))) =
      db.chunks.filter (fun ch => !(ch.fileId == fileId && ch.idx == idx)) ∧
    (chunkUploadStep db fileId idx chunkLen att).deleteQueue =
      ((keyChunks db fileId idx).head?.map (·.messageId)).toList ∧
    (chunkUploadStep db fileId idx chunkLen att).result = Except.ok att.id := by
  have hkey : ∀ (l : List ChunkRow),
      (l.filter (fun ch => !(ch.fileId == fileId && ch.idx == idx))).filter
        (fun ch => ch.fileId == fileId && ch.idx == idx) = [] := by
    intro l
    rw [List.filter_filter]
    have : (fun ch : ChunkRow => (ch.fileId == fileId && ch.idx == idx) &&
        !(ch.fileId == fileId && ch.idx == idx)) = fun _ => false := by
      funext ch
      exact Bool.and_not_self _
    rw [this]
    exact List.filter_false l
  have hidem : ∀ (l : List ChunkRow),
      (l.filter (fun ch => !(ch.fileId == fileId && ch.idx == idx))).filter
        (fun ch => !(ch.fileId == fileId && ch.idx == idx)) =
      l.filter (fun ch => !(ch.fileId == fileId && ch.idx == idx)) := by
    intro l
    rw [List.filter_filter]
    congr 1
    funext ch
    exact Bool.and_self _
  cases hex : (db.chunks.filter (fun ch => ch.fileId == fileId && ch.idx == idx)).head? with
  | none =>
    have hnil : db.chunks.filter (fun ch => ch.fileId == fileId && ch.idx == idx) = [] :=
      List.head?_eq_none_iff.1 hex
    simp only [chunkUploadStep, chunkUploadRun, if_neg (by omega : ¬ chunkLen = 0), hp,
      Bool.not_true, Bool.false_eq_true, if_false, hex]
    refine ⟨trivial, ?_, ?_, by simp [keyChunks, hnil], trivial⟩
    · simp [keyChunks, List.filter_append, hnil]
    · simp [List.filter_append]
  | some ex =>
    simp only [chunkUploadStep, chunkUploadRun, if_neg (by omega : ¬ chunkLen = 0), hp,
      Bool.not_true, Bool.false_eq_true, if_false, hex]
    have hp1 : pendingExists
        { db with chunks := db.chunks.filter (fun ch => !(ch.fileId == fileId && ch.idx == idx)) }
        fileId = true := hp
    simp only [hp1, Bool.not_true, Bool.false_eq_true, if_false]
    refine ⟨trivial, ?_, ?_, by simp [keyChunks, hex], trivial⟩
    · simp only [keyChunks, List.filter_append, hkey]
      simp
    · simp only [List.filter_append, hidem]
      simp

/-- Characterization of sequential chunk uploads at one key: files are
preserved, other keys are preserved, and after a nonempty run the key
holds exactly the last call's row while the delete queue lists the prior
key row (if any) followed by the message ids of all overwritten calls. -/
theorem seqUpload_char (fileId : String) (idx : Nat) :
    ∀ (calls : List (Nat × Att)) (db : Db),
      pendingExists db fileId = true →
      (∀ c ∈ calls, 1 ≤ c.1) →
      (seqUpload fileId idx db calls).1.files = db.files ∧
      ((seqUpload fileId idx db calls).1.chunks.filter
          (fun ch => !(ch.fileId == fileId && ch.idx == idx))) =
        db.chunks.filter (fun ch => !(ch.fileId == fileId && ch.idx == idx)) ∧
      (∀ hne : calls ≠ [],
        keyChunks (seqUpload fileId idx db calls).1 fileId idx =
          [⟨fileId, idx, (calls.getLast hne).2.id, primaryChannel,
            (calls.getLast hne).1, some (calls.getLast hne).2.url⟩] ∧
        (seqUpload fileId idx db calls).2 =
          ((keyChunks db fileId idx).head?.map (·.messageId)).toList ++
            calls.dropLast.map (fun c => c.2.id)) := by
  intro calls
  induction calls with
  | nil =>
    intro db hp hlen
    exact ⟨rfl, rfl, fun hne => absurd rfl hne⟩
  | cons c rest ih =>
    intro db hp hlen
    obtain ⟨len, att⟩ := c
    have hstep := chunkUploadStep_char db fileId idx len att hp
      (hlen (len, att) (List.mem_cons_self _ _))
    have hp1 : pendingExists (chunkUploadStep db fileId idx len att).db fileId = true := by
      rw [pendingExists_congr hstep.1]
      exact hp
    have ihr := ih (chunkUploadStep db fileId idx len att).db hp1
      (fun d hd => hlen d (List.mem_cons_of_mem _ hd))
    refine ⟨?_, ?_, ?_⟩
    · show (seqUpload fileId idx (chunkUploadStep db fileId idx len att).db rest).1.files = _
      rw [ihr.1, hstep.1]
    · show ((seqUpload fileId idx (chunkUploadStep db fileId idx len att).db rest).1.chunks.filter
          _) = _
      rw [ihr.2.1, hstep.2.2.1]
    · intro hne
      by_cases hrest : rest = []
      case pos =>
        subst hrest
        constructor
        · show keyChunks (seqUpload fileId idx (chunkUploadStep db fileId idx len att).db []).1
            fileId idx = _
          simp only [seqUpload]
          rw [hstep.2.1]
          simp [List.getLast_singleton]
        · show (chunkUploadStep db fileId idx len att).deleteQueue ++
            (seqUpload fileId idx (chunkUploadStep db fileId idx len att).db []).2 = _
          simp only [seqUpload]
          rw [List.append_nil, hstep.2.2.2.1]
          simp
      case neg =>
        have hner : rest ≠ [] := hrest
        have hlast := ihr.2.2 hner
        constructor
        · show keyChunks (seqUpload fileId idx (chunkUploadStep db fileId idx len att).db rest).1
            fileId idx = _
          rw [hlast.1]
          rw [List.getLast_cons hner]
        · show (chunkUploadStep db fileId idx len att).deleteQueue ++
            (seqUpload fileId idx (chunkUploadStep db fileId idx len att).db rest).2 = _
          rw [hlast.2, hstep.2.2.2.1, hstep.2.1]
          rw [List.dropLast_cons_of_ne_nil hner]
          simp

/-- C3: after `N ≥ 1` sequential successful chunk uploads at `(id, idx)`
on a pending file with no prior row at that key, exactly one chunk row
exists for the key, its size is the last body's byte length, the message
ids of the `N-1` overwritten records are exactly the scheduled external
deletions, and `(fileId, idx)` holds at most one row after every prefix
of the calls. -/
theorem chunkUpload_overwrite_idempotent (db : Db) (fileId : String) (idx : Nat)
    (calls : List (Nat × Att)) (hne : calls ≠ [])
    (hp : pendingExists db fileId = true)
    (hlen : ∀ c ∈ calls, 1 ≤ c.1)
    (h0 : keyChunks db fileId idx = []) :
    ((keyChunks (seqUpload fileId idx db calls).1 fileId idx).map (·.size) =
       [(calls.getLast hne).1]) ∧
    ((keyChunks (seqUpload fileId idx db calls).1 fileId idx).map (·.messageId) =
       [(calls.getLast hne).2.id]) ∧
    (seqUpload fileId idx db calls).2 = calls.dropLast.map (fun c => c.2.id) ∧
    (∀ k : Nat,
       (keyChunks (seqUpload fileId idx db (calls.take k)).1 fileId idx).length ≤ 1) := by
  have hchar := seqUpload_char fileId idx calls db hp hlen
  have hlast := hchar.2.2 hne
  refine ⟨by rw [hlast.1]; simp, by rw [hlast.1]; simp, ?_, ?_⟩
  · rw [hlast.2, h0]
    simp
  · intro k
    by_cases hk : calls.take k = []
    · rw [hk]
      show (keyChunks (seqUpload fileId idx db []).1 fileId idx).length ≤ 1
      simp only [seqUpload, h0]
      simp
    · have hchark := seqUpload_char fileId idx (calls.take k) db hp
        (fun c hc => hlen c (List.mem_of_mem_take hc))
      rw [(hchark.2.2 hk).1]
      simp

/-- C3 witness: two sequential uploads at `("p", 0)` leave one row of size
4 with message `a2`, and schedule exactly the overwritten `a1`. -/
theorem chunkUpload_overwrite_idempotent_witness :
    ((keyChunks (seqUpload "p" 0 ⟨[⟨"p", "n", 9, "t", "", "", Status.pending⟩], []⟩
        [(3, ⟨"a1", "u1"⟩), (4, ⟨"a2", "u2"⟩)]).1 "p" 0).map (·.size) = [4]) ∧
    ((keyChunks (seqUpload "p" 0 ⟨[⟨"p", "n", 9, "t", "", "", Status.pending⟩], []⟩
        [(3, ⟨"a1", "u1"⟩), (4, ⟨"a2", "u2"⟩)]).1 "p" 0).map (·.messageId) = ["a2"]) ∧
    (seqUpload "p" 0 ⟨[⟨"p", "n", 9, "t", "", "", Status.pending⟩], []⟩
        [(3, ⟨"a1", "u1"⟩), (4, ⟨"a2", "u2"⟩)]).2 = ["a1"] ∧
    (keyChunks (seqUpload "p" 0 ⟨[⟨"p", "n", 9, "t", "", "", Status.pending⟩], []⟩
        ([(3, ⟨"a1", "u1"⟩), (4, ⟨"a2", "u2"⟩)].take 1)).1 "p" 0).length ≤ 1 := by
  have h := chunkUpload_overwrite_idempotent
    ⟨[⟨"p", "n", 9, "t", "", "", Status.pending⟩], []⟩ "p" 0
    [(3, ⟨"a1", "u1"⟩), (4, ⟨"a2", "u2"⟩)] (by decide) (by decide) (by decide) (by decide)
  refine ⟨?_, ?_, ?_, h.2.2.2 1⟩
  · rw [h.1]
    decide
  · rw [h.2.1]
    decide
  · rw [h.2.2.1]
    decide

/-- The cumulative walk of stream.ts (lines 57-68): find the chunk whose
span `[cum, cum + size)` contains `start`, returning it with its starting
offset. -/
def locate : List ChunkRow → Nat → Nat → Option (ChunkRow × Nat)
  | [], _, _ => none
  | c :: rest, start, cum =>
    if cum ≤ start ∧ start < cum + c.size then some (c, cum)
    else locate rest start (cum + c.size)

/-- Sum of the sizes of the first `k` chunks (cumulative offset of chunk `k`). -/
def prefixSize (l : List ChunkRow) (k : Nat) : Nat :=
  ((l.take k).map (·.size)).sum

/-- Outcome of `GET /stream/file/:id`: either 416 or the headers of the
206 response (status, Content-Range start and end, Content-Range total,
Content-Length). -/
inductive RangeResult where
  | notSatisfiable
  | ok (status rangeStart rangeEnd total contentLength : Nat)
deriving DecidableEq, Repr

/-- `GET /stream/file/:id` (stream.ts, lines 13-176) up to the response
headers: parse the range (defaults `0` and `size - 1`), locate the target
chunk by the cumulative walk, clamp to the containing chunk, and answer
206 with `Content-Range: bytes start-globalEnd/size` and
`Content-Length: actualLength` (or 416 when no chunk contains `start`). -/
def streamFileRange (file : FileRow) (chunks : List ChunkRow)
    (range : Option (Nat × Option Nat)) : RangeResult :=
  let start := match range with | some (s, _) => s | none => 0
  let endByte := match range with
    | some (_, some e) => e
    | some (_, none) => file.size - 1
    | none => file.size - 1
  match locate chunks start 0 with
  | none => RangeResult.notSatisfiable
  | some (c, cum) =>
    let localStart := start - cum
    let localAvailable := c.size - localStart
    let requestSize := endByte - start + 1
    let actualLength := min requestSize localAvailable
    let globalEnd := start + actualLength - 1
    RangeResult.ok 206 start globalEnd file.size actualLength

/-- `prefixSize` over a cons shifts by the head's size. -/
theorem prefixSize_cons (a : ChunkRow) (t : List ChunkRow) (k : Nat) :
    prefixSize (a :: t) (k + 1) = a.size + prefixSize t k := by
  simp [prefixSize, List.take_succ_cons]

/-- `prefixSize` at a valid index grows by that chunk's size. -/
theorem prefixSize_succ_of_get {l : List ChunkRow} {k : Nat} {c : ChunkRow}
    (hget : l.get? k = some c) :
    prefixSize l (k + 1) = prefixSize l k + c.size := by
  have hg : l[k]? = some c := by
    rw [← List.get?_eq_getElem?]
    exact hget
  simp [prefixSize, List.take_succ, hg]

/-- `prefixSize` is monotone in the index. -/
theorem prefixSize_mono (l : List ChunkRow) {j k : Nat} (h : j ≤ k) :
    prefixSize l j ≤ prefixSize l k := by
  induction k with
  | zero =>
    cases Nat.le_zero.1 h
    exact le_refl _
  | succ m ih =>
    rcases Nat.lt_or_ge j (m + 1) with hlt | hge
    · refine le_trans (ih (Nat.lt_succ_iff.1 hlt)) ?_
      simp only [prefixSize, List.take_succ, List.map_append, List.sum_append]
      exact Nat.le_add_right _ _
    · cases Nat.le_antisymm h hge
      exact le_refl _

/-- The cumulative walk returns chunk `k` with offset `base + prefixSize k`
whenever `start` lies in chunk `k`'s span. -/
theorem locate_eq (l : List ChunkRow) :
    ∀ (k base s : Nat) (c : ChunkRow), l.get? k = some c →
      base + prefixSize l k ≤ s → s < base + prefixSize l (k + 1) →
      locate l s base = some (c, base + prefixSize l k) := by
  induction l with
  | nil =>
    intro k base s c hget
    simp at hget
  | cons a t ih =>
    intro k base s c hget h1 h2
    cases k with
    | zero =>
      simp only [List.get?_cons_zero, Option.some.injEq] at hget
      subst hget
      have h1' : base ≤ s := by simpa [prefixSize] using h1
      have h2' : s < base + a.size := by
        rw [prefixSize_cons] at h2
        simpa [prefixSize] using h2
      simp [locate, h1', h2', prefixSize]
    | succ j =>
      simp only [List.get?_cons_succ] at hget
      rw [prefixSize_cons] at h1
      rw [prefixSize_cons] at h2
      have hno : ¬ (base ≤ s ∧ s < base + a.size) := by
        rintro ⟨-, hlt⟩
        omega
      simp only [locate, if_neg hno]
      have := ih j (base + a.size) s c hget (by omega) (by omega)
      rw [this, prefixSize_cons]
      congr 2
      omega

/-- A strict growth of `prefixSize` forces the index to be in range. -/
theorem lt_length_of_prefixSize_lt {l : List ChunkRow} {k : Nat}
    (h : prefixSize l k < prefixSize l (k + 1)) : k < l.length := by
  by_contra hk
  push_neg at hk
  have h1 : l.take k = l := List.take_of_length_le hk
  have h2 : l.take (k + 1) = l := List.take_of_length_le (le_trans hk (Nat.le_succ _))
  simp only [prefixSize, h1, h2] at h
  exact lt_irrefl _ h

/-- C1: on a file whose chunk sizes sum to `S`, a request `bytes=s-e` with
`s ≤ e < S` is served from the unique chunk `k` containing byte `s`
(`prefixSize k ≤ s < prefixSize (k+1)`), with a 206 response,
`Content-Range: bytes s-g/S` for `g = min e (last byte of chunk k)`, and
`Content-Length = g - s + 1`. -/
theorem rangeStream_locates_unique_chunk (file : FileRow) (chunks : List ChunkRow)
    (s e k : Nat)
    (hsum : prefixSize chunks chunks.length = file.size)
    (hse : s ≤ e) (heS : e < file.size)
    (hk1 : prefixSize chunks k ≤ s) (hk2 : s < prefixSize chunks (k + 1)) :
    (∀ j, prefixSize chunks j ≤ s → s < prefixSize chunks (j + 1) → j = k) ∧
    streamFileRange file chunks (some (s, some e)) =
      RangeResult.ok 206 s (min e (prefixSize chunks (k + 1) - 1)) file.size
        (min e (prefixSize chunks (k + 1) - 1) - s + 1) := by
  have hklen : k < chunks.length := lt_length_of_prefixSize_lt (lt_of_le_of_lt hk1 hk2)
  obtain ⟨c, hget⟩ : ∃ c, chunks.get? k = some c :=
    ⟨chunks.get ⟨k, hklen⟩, List.get?_eq_get hklen⟩
  have hsucc : prefixSize chunks (k + 1) = prefixSize chunks k + c.size :=
    prefixSize_succ_of_get hget
  constructor
  · intro j hj1 hj2
    by_contra hjk
    rcases Nat.lt_or_ge j k with hlt | hge
    · have : prefixSize chunks (j + 1) ≤ prefixSize chunks k := prefixSize_mono chunks hlt
      omega
    · have hgt : k < j := lt_of_le_of_ne hge (fun h => hjk h.symm)
      have : prefixSize chunks (k + 1) ≤ prefixSize chunks j := prefixSize_mono chunks hgt
      omega
  · have hloc : locate chunks s 0 = some (c, 0 + prefixSize chunks k) :=
      locate_eq chunks k 0 s c hget (by omega) (by omega)
    simp only [streamFileRange, hloc, Nat.zero_add]
    rw [hsucc] at hk2 ⊢
    have h1 : s + min (e - s + 1) (c.size - (s - prefixSize chunks k)) - 1 =
        min e (prefixSize chunks k + c.size - 1) := by omega
    have h2 : min (e - s + 1) (c.size - (s - prefixSize chunks k)) =
        min e (prefixSize chunks k + c.size - 1) - s + 1 := by omega
    rw [h1, h2]

/-- C1 witness: chunk sizes `[5, 7, 4]` (total 16), request `bytes=6-14`:
byte 6 lives in chunk 1, so the response is 206 with
`Content-Range: bytes 6-11/16` and `Content-Length: 6`. -/
theorem rangeStream_locates_unique_chunk_witness :
    streamFileRange ⟨"f", "n", 16, "t", "", "", Status.active⟩
      [⟨"f", 0, "m0", "primary", 5, none⟩, ⟨"f", 1, "m1", "primary", 7, none⟩,
       ⟨"f", 2, "m2", "primary", 4, none⟩] (some (6, some 14)) =
      RangeResult.ok 206 6 11 16 6 := by
  have h := rangeStream_locates_unique_chunk ⟨"f", "n", 16, "t", "", "", Status.active⟩
    [⟨"f", 0, "m0", "primary", 5, none⟩, ⟨"f", 1, "m1", "primary", 7, none⟩,
     ⟨"f", 2, "m2", "primary", 4, none⟩] 6 14 1
    (by decide) (by decide) (by decide) (by decide) (by decide)
  rw [h.2]
  decide

/-- Sliding-window size of the full-file download (download.ts line 157). -/
def WINDOW_SIZE : Nat := 2

/-- The write loop of download.ts (lines 165-184): at iteration `i`, await
promise `i` (error out when missing), clear its slot, start the look-ahead
fetch at slot `i + WINDOW_SIZE`, and write the awaited bytes.  `remaining`
counts the iterations left (`filtered.length - i`); the promise array is
modelled as a function from slot index to the resolved bytes. -/
def writeLoop (fetch : ChunkRow → List Nat) (filtered : List ChunkRow) :
    Nat → Nat → (Nat → Option (List Nat)) → Option (List (List Nat))
  | 0, _, _ => some []
  | r + 1, i, proms =>
    match proms i with
    | some data =>
      let proms1 : Nat → Option (List Nat) := fun j => if j = i then none else proms j
      let la := i + WINDOW_SIZE
      let proms2 : Nat → Option (List Nat) := fun j =>
        if la < filtered.length ∧ j = la then (filtered.get? la).map fetch else proms1 j
      match writeLoop fetch filtered r (i + 1) proms2 with
      | some rest => some (data :: rest)
      | none => none
    | none => none

/-- The full-stream pipeline body (download.ts lines 156-184): initialize
the first `WINDOW_SIZE` promises, then run the write loop over all
filtered chunks. -/
def downloadBody (fetch : ChunkRow → List Nat) (filtered : List ChunkRow) :
    Option (List Nat) :=
  let init : Nat → Option (List Nat) := fun j =>
    if j < WINDOW_SIZE ∧ j < filtered.length then (filtered.get? j).map fetch else none
  (writeLoop fetch filtered filtered.length 0 init).map List.join

/-- Outcome of the full-file `GET /download/:id` (no `index` query):
404, or the `Content-Length` header together with the streamed body
(`none` models a pipeline abort after the headers were sent). -/
inductive DownloadResult where
  | notFound
  | ok (contentLength : Nat) (body : Option (List Nat))
deriving DecidableEq, Repr

/-- Full-file `GET /download/:id?start_chunk=K` (download.ts lines 14-28
and 73-214), over the idx-ordered chunk list of the file: 404 when there
are no chunks; otherwise `Content-Length` is `totalEncryptedSize`, the sum
over ALL chunks (download.ts line 74, computed before the `start_chunk`
filter of line 154), and the body is the pipeline over the chunks with
`idx ≥ K`. -/
def downloadFull (chunks : List ChunkRow) (startChunk : Nat)
    (fetch : ChunkRow → List Nat) : DownloadResult :=
  if chunks.isEmpty then DownloadResult.notFound
  else
    let totalEncryptedSize := (chunks.map (·.size)).sum
    let filtered := chunks.filter (fun ch => startChunk ≤ ch.idx)
    DownloadResult.ok totalEncryptedSize (downloadBody fetch filtered)

/-- The write loop emits exactly the fetched chunks from position `i` on,
given the window invariant on the promise slots. -/
theorem writeLoop_emits (fetch : ChunkRow → List Nat) (filtered : List ChunkRow) :
    ∀ (r i : Nat) (proms : Nat → Option (List Nat)),
      r + i = filtered.length →
      (∀ j, proms j = if i ≤ j ∧ j < min (i + WINDOW_SIZE) filtered.length
        then (filtered.get? j).map fetch else none) →
      writeLoop fetch filtered r i proms = some ((filtered.drop i).map fetch) := by
  intro r
  induction r with
  | zero =>
    intro i proms hlen _
    have : filtered.length ≤ i := by omega
    simp [writeLoop, List.drop_eq_nil_of_le this]
  | succ r ih =>
    intro i proms hlen hinv
    have hilen : i < filtered.length := by omega
    obtain ⟨c, hget⟩ : ∃ c, filtered.get? i = some c :=
      ⟨filtered.get ⟨i, hilen⟩, List.get?_eq_get hilen⟩
    have hpi : proms i = some (fetch c) := by
      rw [hinv i, if_pos ⟨le_refl i, by simp [WINDOW_SIZE]; omega⟩, hget]
      rfl
    simp only [writeLoop, hpi]
    have hrec := ih (i + 1)
      (fun j => if i + WINDOW_SIZE < filtered.length ∧ j = i + WINDOW_SIZE
        then (filtered.get? (i + WINDOW_SIZE)).map fetch
        else if j = i then none else proms j)
      (by omega) ?_
    · rw [hrec]
      have hdrop : filtered.drop i = c :: filtered.drop (i + 1) := by
        rw [List.drop_eq_getElem_cons hilen]
        congr 1
        have h4 : filtered[i]? = some c := by
          rw [← List.get?_eq_getElem?]
          exact hget
        have h5 : filtered[i]? = some filtered[i] := List.getElem?_eq_getElem hilen
        rw [h4] at h5
        exact (Option.some_inj.1 h5).symm
      rw [hdrop]
      simp
    · intro j
      have hW : WINDOW_SIZE = 2 := rfl
      simp only [hinv]
      by_cases hja : i + WINDOW_SIZE < filtered.length ∧ j = i + WINDOW_SIZE
      · obtain ⟨hlt, rfl⟩ := hja
        rw [if_pos ⟨hlt, rfl⟩, if_pos (by omega)]
      · rw [if_neg hja]
        by_cases hji : j = i
        · subst hji
          rw [if_pos rfl, if_neg (by omega)]
        · rw [if_neg hji]
          by_cases hcond : i ≤ j ∧ j < min (i + WINDOW_SIZE) filtered.length
          · rw [if_pos hcond, if_pos (by omega)]
          · rw [if_neg hcond, if_neg (by omega)]

/-- C4: the full-file download body is exactly the concatenation of the
fetched bodies of the chunks with `idx ≥ K`, emitted in list order — which
is strictly ascending `idx` order since the SQL query sorts by `idx` and
`(fileId, idx)` is unique — despite the `WINDOW_SIZE`-deep concurrent
prefetch. -/
theorem downloadFull_ascending_concat (chunks : List ChunkRow) (K : ℕ)
    (fetch : ChunkRow → List ℕ) (hne : chunks ≠ [])
    (hsorted : chunks.Pairwise (fun a b => a.idx < b.idx)) :
    downloadFull chunks K fetch =
      DownloadResult.ok ((chunks.map (·.size)).sum)
        (some (((chunks.filter (fun ch => decide (K ≤ ch.idx))).map fetch).join)) ∧
    (chunks.filter (fun ch => decide (K ≤ ch.idx))).Pairwise (fun a b => a.idx < b.idx) := by
  constructor
  · simp only [downloadFull, if_neg (fun h => hne (List.isEmpty_iff.1 h))]
    congr 1
    have hinv : ∀ j : ℕ,
        (if j < WINDOW_SIZE ∧ j < (chunks.filter (fun ch => decide (K ≤ ch.idx))).length
          then ((chunks.filter (fun ch => decide (K ≤ ch.idx))).get? j).map fetch else none) =
        (if 0 ≤ j ∧ j < min (0 + WINDOW_SIZE)
            (chunks.filter (fun ch => decide (K ≤ ch.idx))).length
          then ((chunks.filter (fun ch => decide (K ≤ ch.idx))).get? j).map fetch else none) := by
      intro j
      have hW : WINDOW_SIZE = 2 := rfl
      by_cases h : j < WINDOW_SIZE ∧ j < (chunks.filter (fun ch => decide (K ≤ ch.idx))).length
      · rw [if_pos h, if_pos (by omega)]
      · rw [if_neg h, if_neg (by omega)]
    have hrun := writeLoop_emits fetch (chunks.filter (fun ch => decide (K ≤ ch.idx)))
      (chunks.filter (fun ch => decide (K ≤ ch.idx))).length 0
      (fun j => if j < WINDOW_SIZE ∧ j < (chunks.filter (fun ch => decide (K ≤ ch.idx))).length
        then ((chunks.filter (fun ch => decide (K ≤ ch.idx))).get? j).map fetch else none)
      (by omega) (fun j => hinv j)
    simp only [downloadBody, hrun, List.drop_zero, Option.map_some']
  · exact List.Pairwise.filter _ hsorted

/-- C4 witness: three sorted chunks, `start_chunk = 1`: the body is the
concatenation of chunks 1 and 2 in order. -/
theorem downloadFull_ascending_concat_witness :
    downloadFull [⟨"f", 0, "m0", "primary", 2, none⟩, ⟨"f", 1, "m1", "primary", 3, none⟩,
        ⟨"f", 2, "m2", "primary", 4, none⟩] 1 (fun ch => [ch.idx, ch.size]) =
      DownloadResult.ok 9 (some [1, 3, 2, 4]) := by
  have h := downloadFull_ascending_concat
    [⟨"f", 0, "m0", "primary", 2, none⟩, ⟨"f", 1, "m1", "primary", 3, none⟩,
     ⟨"f", 2, "m2", "primary", 4, none⟩] 1 (fun ch => [ch.idx, ch.size])
    (by decide) (by decide)
  rw [h.1]
  decide

/-- C5: at the failing input — chunks of sizes `[5, 7]` and
`start_chunk = 1` — the full download sets `Content-Length` to 12, the sum
over ALL chunks, while the emitted body has only the 7 bytes of chunk 1,
so the header does not equal the sum of the emitted chunk sizes. -/
theorem downloadFull_contentLength_bug :
    downloadFull [⟨"f", 0, "m0", "primary", 5, none⟩, ⟨"f", 1, "m1", "primary", 7, none⟩] 1
        (fun ch => List.replicate ch.size 0) =
      DownloadResult.ok 12 (some (List.replicate 7 0)) ∧
    (List.replicate (7 : Nat) (0 : Nat)).length ≠ 12 := by
  constructor
  · decide
  · decide

/-- Value of one hexadecimal digit, `none` for a non-hex character. -/
def hexVal (c : Char) : Option Nat :=
  if c.isDigit then some (c.toNat - 48)
  else if 'a' ≤ c ∧ c ≤ 'f' then some (c.toNat - 87)
  else if 'A' ≤ c ∧ c ≤ 'F' then some (c.toNat - 55)
  else none

/-- Accumulate leading hex digits, stopping at the first non-hex char. -/
def parseHexLoop : List Char → Nat → Nat
  | [], acc => acc
  | c :: t, acc =>
    match hexVal c with
    | some v => parseHexLoop t (acc * 16 + v)
    | none => acc

/-- JavaScript `parseInt(s, 16)` on canonical inputs: `none` models `NaN`
(first character not a hex digit), otherwise the value of the leading hex
digits. -/
def parseHexJS (s : String) : Option Nat :=
  match s.toList with
  | [] => none
  | c :: _ =>
    match hexVal c with
    | none => none
    | some _ => some (parseHexLoop s.toList 0)

/-- Whether `pat` is a prefix of `s`. -/
def startsWithL : List Char → List Char → Bool
  | [], _ => true
  | _ :: _, [] => false
  | a :: pat, b :: t => a == b && startsWithL pat t

/-- Whether `pat` occurs as a contiguous substring of `s`
(JavaScript `String.prototype.includes`). -/
def hasSubL : List Char → List Char → Bool
  | [], pat => pat.isEmpty
  | b :: t, pat => startsWithL pat (b :: t) || hasSubL t pat

/-- JavaScript `url.includes(pat)`. -/
def strIncludes (s pat : String) : Bool := hasSubL s.toList pat.toList

/-- Split a character list at every occurrence of `sep`. -/
def splitOnChar (sep : Char) : List Char → List (List Char)
  | [] => [[]]
  | c :: t =>
    let r := splitOnChar sep t
    if c = sep then [] :: r
    else
      match r with
      | h :: t2 => (c :: h) :: t2
      | [] => [[c]]

/-- The suffix after the first occurrence of `sep`, if any. -/
def afterChar (sep : Char) : List Char → Option (List Char)
  | [] => none
  | c :: t => if c = sep then some t else afterChar sep t

/-- `new URL(url).searchParams.get(key)` on well-formed absolute URLs:
take the part after the first `?` (up to `#`), split on `&`, return the
value of the first pair whose key matches (`""` when the pair has no `=`). -/
def getQueryParam (url key : String) : Option String :=
  match afterChar '?' url.toList with
  | none => none
  | some q =>
    let q := q.takeWhile (fun c => !(c == '#'))
    let pairs := splitOnChar '&' q
    match pairs.find? (fun p => p.takeWhile (fun c => !(c == '=')) == key.toList) with
    | none => none
    | some p =>
      match afterChar '=' p with
      | some v => some (String.mk v)
      | none => some ""

/-- Expiry test at the download fetch sites (download.ts lines 39-42 and
92-95): a missing URL is expired; otherwise the URL is expired only when
it CONTAINS the substring `ex=` and
`parseInt(searchParams.get("ex") || "0", 16)` is below the current Unix
time (a non-hex value is `NaN`, which compares false). -/
def downloadIsExpired (url : Option String) (now : Nat) : Bool :=
  match url with
  | none => true
  | some u =>
    strIncludes u "ex=" &&
      (let raw :=
        match getQueryParam u "ex" with
        | none => "0"
        | some v => if v = "" then "0" else v
      match parseHexJS raw with
      | none => false
      | some n => decide (n < now))

/-- Expiry test of the range-stream site (stream.ts lines 87-98): a
missing URL or missing/empty `ex` parameter is expired; otherwise the URL
is expired when the hex timestamp is less than 5 minutes (300 s) in the
future. -/
def streamIsExpired (url : Option String) (now : Nat) : Bool :=
  match url with
  | none => true
  | some u =>
    match getQueryParam u "ex" with
    | none => true
    | some v =>
      if v = "" then true
      else
        match parseHexJS v with
        | none => false
        | some n => decide (n < now + 300)

/-- C9 counterexample: a stored URL with no `ex` query parameter is NOT
treated as expired by the download fetch sites (no refresh is attempted
there), contradicting the claim that every fetch site treats a URL
lacking `ex` as expired; the range-stream site does treat it as expired. -/
theorem downloadExpiry_missing_ex_not_expired :
    downloadIsExpired (some "https://cdn.dc/att/a.bin") 1700000000 = false ∧
    streamIsExpired (some "https://cdn.dc/att/a.bin") 1700000000 = true := by
  constructor
  · decide
  · decide

/-- C9 (amended): a missing stored URL is expired at every fetch site.
The range-stream site treats a URL whose `ex` parameter is absent as
expired, and one with a hex `ex` as expired iff it has under 5 minutes
(300 s) of lifetime left.  The download sites (per-chunk proxy and
full-file stream) treat a URL lacking the substring `ex=` as fresh, and
one carrying a hex `ex` as expired iff the timestamp is in the past. -/
theorem urlExpiry_per_site (u v : String) (n now : Nat) :
    (downloadIsExpired none now = true ∧ streamIsExpired none now = true) ∧
    (strIncludes u "ex=" = false → downloadIsExpired (some u) now = false) ∧
    (getQueryParam u "ex" = none → streamIsExpired (some u) now = true) ∧
    (getQueryParam u "ex" = some v → v ≠ "" → parseHexJS v = some n →
       streamIsExpired (some u) now = decide (n < now + 300)) ∧
    (strIncludes u "ex=" = true → getQueryParam u "ex" = some v → v ≠ "" →
       parseHexJS v = some n →
       downloadIsExpired (some u) now = decide (n < now)) := by
  refine ⟨⟨rfl, rfl⟩, ?_, ?_, ?_, ?_⟩
  · intro h
    simp [downloadIsExpired, h]
  · intro h
    simp [streamIsExpired, h]
  · intro h hv hn
    simp [streamIsExpired, h, hv, hn]
  · intro hs h hv hn
    simp [downloadIsExpired, hs, h, hv, hn]

/-- C9 witness: `http://c/a` (no `ex`) is fresh for downloads but expired
for the range stream; `http://c/a?ex=64` (hex 64 = 100 s) at time 50 is
inside the 5-minute margin (range: expired) yet not past (download:
fresh). -/
theorem urlExpiry_per_site_witness :
    downloadIsExpired (some "http://c/a") 9 = false ∧
    streamIsExpired (some "http://c/a") 9 = true ∧
    streamIsExpired (some "http://c/a?ex=64") 50 = true ∧
    downloadIsExpired (some "http://c/a?ex=64") 50 = false := by
  have h1 := urlExpiry_per_site "http://c/a" "" 0 9
  have h2 := urlExpiry_per_site "http://c/a?ex=64" "64" 100 50
  refine ⟨h1.2.1 (by decide), h1.2.2.1 (by decide), ?_, ?_⟩
  · rw [h2.2.2.2.1 (by decide) (by decide) (by decide)]
    decide
  · rw [h2.2.2.2.2 (by decide) (by decide) (by decide) (by decide)]
    decide

end GibRun
